import Mathlib

/-!
Verification of the parameter-sweep engine and result cache of
src/kerncraft/kerncraft.py (the sole source file of this repository).

The Python source is shallowly embedded below:
* the RANGESPEC regular-expression match of AppendStringRange.__call__
  (lines 62-90) becomes the executable parser parseRangeSpec, with
  re.match prefix semantics (trailing characters are ignored);
* the generator space (lines 21-49) becomes spaceList; Python float
  arithmetic is modelled by exact rational arithmetic, and Python 2
  round (half away from zero) by Mathlib round, which agrees with it
  on the nonnegative values reachable from parsed tokens;
* the define_dict accumulation of run (lines 153-160) becomes
  buildDefineDict; Python dicts are modelled as insertion-ordered
  association lists, and the dynamically-typed membership test
  v not in define_dict[name] is modelled over the PyVal type;
* itertools.product (line 161) becomes prodList;
* the nested result_storage dictionaries (lines 192-198) become Store
  with the operation upsert;
* the pickle load of lines 134-142 becomes loadStore, parameterised by
  the external deserializer; pickleMini is a faithful model of the
  CPython 2 pickle.Unpickler dispatch loop restricted to the opcodes
  NONE (byte 78) and STOP (byte 46): reading past the end of input
  dispatches load_eof, which raises EOFError;
* the save of lines 202-207 (write to name + ".tmp", then shutil.move,
  which is os.rename for a same-directory destination) becomes the
  file-system step model applyOp / saveStore.
-/

namespace Kerncraft

/-! ## Range parsing: AppendStringRange.__call__ (lines 62-90) -/

/-- Greedy digit run, as matched by a maximal-munch d+ in the pattern. -/
def takeDigits : List Char → List Char × List Char
  | [] => ([], [])
  | c :: cs =>
    if c.isDigit then
      let (d, r) := takeDigits cs
      (c :: d, r)
    else ([], c :: cs)

/-- Numeric value of a digit run, as computed by int(...) on the group. -/
def digitsVal (ds : List Char) : Nat :=
  ds.foldl (fun a c => a * 10 + (c.toNat - 48)) 0

/-- The group dictionary produced by the regular expression of line 67:
(?P<start>d+)(?:-(?P<stop>d+)(?::(?P<num>d+)(:?(?P<log>log)(:?(?P<base>d+))?)?)?)?
matched with re.match, i.e. against an arbitrary prefix of the token. -/
structure RangeMatch where
  start : Nat
  stop : Option Nat
  num : Option Nat
  hasLog : Bool
  base : Option Nat
deriving DecidableEq

/-- The (:?(?P<log>log) ...) part: an optional colon followed by the literal
log marker; absent when neither form is present. Returns the rest on success. -/
def stripLogMarker : List Char → Option (List Char)
  | 'l' :: 'o' :: 'g' :: r => some r
  | ':' :: 'l' :: 'o' :: 'g' :: r => some r
  | _ => none

/-- The (:?(?P<base>d+))? part: an optional colon followed by digits. -/
def parseBaseNum (r : List Char) : Option Nat :=
  match takeDigits r with
  | (d :: ds, _) => some (digitsVal (d :: ds))
  | ([], _) =>
    match r with
    | ':' :: r2 =>
      match takeDigits r2 with
      | (d :: ds, _) => some (digitsVal (d :: ds))
      | ([], _) => none
    | _ => none

/-- re.match of the RANGESPEC pattern against the token: none when no prefix
matches (start missing), otherwise the group dictionary.  Trailing characters
after the matched prefix are ignored, exactly as re.match does. -/
def parseRangeSpec (cs : List Char) : Option RangeMatch :=
  match takeDigits cs with
  | ([], _) => none
  | (d :: ds, rest) =>
    let start := digitsVal (d :: ds)
    match rest with
    | '-' :: r1 =>
      match takeDigits r1 with
      | ([], _) => some ⟨start, none, none, false, none⟩
      | (d2 :: ds2, r2) =>
        let stop := digitsVal (d2 :: ds2)
        match r2 with
        | ':' :: r3 =>
          match takeDigits r3 with
          | ([], _) => some ⟨start, some stop, none, false, none⟩
          | (d3 :: ds3, r4) =>
            let num := digitsVal (d3 :: ds3)
            match stripLogMarker r4 with
            | none => some ⟨start, some stop, some num, false, none⟩
            | some r5 => some ⟨start, some stop, some num, true, parseBaseNum r5⟩
        | _ => some ⟨start, some stop, none, false, none⟩
    | _ => some ⟨start, none, none, false, none⟩

/-- The value stored into values[1] by AppendStringRange.__call__:
a one-element list, a range(start, stop+1) object, or an unevaluated
space(start, stop, num, log, base) generator (lines 71-80). -/
inductive ParsedValues where
  | single (n : ℤ)
  | intRange (start stop : ℤ)
  | spaceCall (start stop num : ℤ) (useLog : Bool) (base : ℤ)
deriving DecidableEq

/-- AppendStringRange.__call__ on one KEY VALUE pair: parse error (argparse
ArgumentError) exactly when no prefix of the token matches the pattern;
otherwise the branch on the stop and num groups of lines 72-80.  Note that
the space generator is created but not run here. -/
def appendStringRange (token : List Char) : Except String ParsedValues :=
  match parseRangeSpec token with
  | none => .error "second argument must match: start[-stop[:num[log[base]]]]"
  | some gd =>
    match gd.stop with
    | none => .ok (.single gd.start)
    | some stop =>
      match gd.num with
      | none => .ok (.intRange gd.start stop)
      | some num =>
        .ok (.spaceCall gd.start stop num gd.hasLog
          (match gd.base with
           | some b => (b : ℤ)
           | none => 10))

/-! ## The space generator (lines 21-49) -/

/-- One yielded value of the linear branch of space:
int(round(start + i*steplength)), with float arithmetic modelled exactly
over the rationals.  Python 2 round rounds half away from zero; on the
nonnegative arguments reachable from parsed tokens this agrees with
Mathlib round. -/
def spaceList (start stop num : ℤ) (endpoint : Bool) : List ℤ :=
  let steplength : ℚ :=
    if endpoint then ((stop : ℚ) - (start : ℚ)) / ((num : ℚ) - 1)
    else ((stop : ℚ) - (start : ℚ)) / (num : ℚ)
  (List.range num.toNat).map fun i : ℕ =>
    round ((start : ℚ) + (i : ℚ) * steplength)

/-- Abstract evaluator for one yielded value of the log branch of space
(int(round(base**(start + i*steplength))) after the log transform), whose
transcendental float computation is not modelled; arguments are
start, stop, num, base and the index i. -/
abbrev LogEval : Type := ℤ → ℤ → ℤ → ℤ → ℕ → ℤ

/-- A fixed instantiation of the abstract log-branch evaluator, used to state
closed evaluations of paths that never reach the log branch. -/
def logEvalZero : LogEval := fun _ _ _ _ _ => 0

/-- Exhausting the iterator stored in values[1].  A single value or a range
object yields its elements directly; a space generator first runs the
assert num >= 2 of line 32 (an AssertionError at first consumption), then
yields the linear or log sequence. -/
def expandValues (logEval : LogEval) : ParsedValues → Except String (List ℤ)
  | .single n => .ok [n]
  | .intRange a b => .ok ((List.range (b + 1 - a).toNat).map fun i : ℕ => a + (i : ℤ))
  | .spaceCall a b n lg base =>
    if 2 ≤ n then
      .ok (if lg then (List.range n.toNat).map fun i => logEval a b n base i
           else spaceList a b n true)
    else .error "num has to be atleast 2"

/-- Full pipeline for one RANGESPEC token: parse at argument time, then
exhaust the stored iterator as the define_dict loop of run does. -/
def parseAndExpand (logEval : LogEval) (token : List Char) : Except String (List ℤ) :=
  match appendStringRange token with
  | .error e => .error e
  | .ok v => expandValues logEval v

/-! ## Association-list model of Python dicts -/

/-- Lookup d[k]: the value of the first (and, for a genuine dict, only)
binding of k. -/
def alookup {κ β : Type} [DecidableEq κ] (l : List (κ × β)) (k : κ) : Option β :=
  (l.find? fun p => decide (p.1 = k)).map (fun p => p.2)

/-- Membership test k in d. -/
def amem {κ β : Type} [DecidableEq κ] (l : List (κ × β)) (k : κ) : Bool :=
  l.any fun p => decide (p.1 = k)

/-- Assignment d[k] = v: overwrite the binding when present, else append a
new binding (Python dicts keep insertion order). -/
def aset {κ β : Type} [DecidableEq κ] (l : List (κ × β)) (k : κ) (v : β) : List (κ × β) :=
  if amem l k then l.map fun p => if p.1 = k then (k, v) else p
  else l ++ [(k, v)]

/-- Number of bindings of k in the association list. -/
def countKey {κ β : Type} [DecidableEq κ] (l : List (κ × β)) (k : κ) : Nat :=
  l.countP fun p => decide (p.1 = k)

/-! ## define_dict accumulation (run, lines 153-160) -/

/-- A Python value occurring in define_dict[name]: either a bare integer
(as tested by v not in define_dict[name]) or a two-element list [name, v]
(as stored by the code).  In Python an int never equals a list, which the
derived equality reproduces. -/
inductive PyVal where
  | vInt (n : ℤ)
  | vPair (name : String) (v : ℤ)
deriving DecidableEq

/-- d[name].append(item) for a key known to be present. -/
def appendAt (d : List (String × List PyVal)) (k : String) (item : PyVal) :
    List (String × List PyVal) :=
  d.map fun p => if p.1 = k then (p.1, p.2 ++ [item]) else p

/-- One iteration of the loop over args.define (lines 154-160):
first occurrence of name stores [[name, v] for v in values]; a later
occurrence appends [name, v] for each v with v not in define_dict[name]. -/
def declareOne (d : List (String × List PyVal)) (name : String) (values : List ℤ) :
    List (String × List PyVal) :=
  if amem d name then
    values.foldl
      (fun d' v =>
        if ((alookup d' name).getD []).contains (PyVal.vInt v) then d'
        else appendAt d' name (PyVal.vPair name v))
      d
  else d ++ [(name, values.map fun v => PyVal.vPair name v)]

/-- The whole define_dict accumulation over the declared (name, values)
pairs, in command-line order. -/
def buildDefineDict (defines : List (String × List ℤ)) : List (String × List PyVal) :=
  defines.foldl (fun d nv => declareOne d nv.1 nv.2) []

/-! ## itertools.product (run, line 161) -/

/-- itertools.product(*axes): nested-loop cartesian product, first axis
outermost, last axis innermost. -/
def prodList {α : Type} : List (List α) → List (List α)
  | [] => [[]]
  | ax :: axs => ((ax.map fun v => (prodList axs).map fun t => v :: t)).flatten

/-- Product of the axis lengths. -/
def sizeProd {α : Type} (axes : List (List α)) : Nat :=
  (axes.map List.length).prod

/-- Written from the specification text of C4, not from the code: the k-th
permutation of a lexicographic, last-axis-fastest enumeration picks from
each axis the digit of k in the mixed-radix system whose place value at an
axis is the product of the lengths of all later axes; none past the end. -/
def specKth {α : Type} : List (List α) → Nat → Option (List α)
  | [], k => if k = 0 then some [] else none
  | ax :: axs, k =>
    (ax[k / sizeProd axs]?).bind fun v =>
      (specKth axs (k % sizeProd axs)).map fun t => v :: t

/-! ## Result storage (run, lines 192-198) -/

/-- tuple(kernel._constants.items()): the ordered constant pairs. -/
abbrev ConstKey : Type := List (String × ℤ)

/-- result_storage: kernel_name -> constants_key -> model_name -> results. -/
abbrev Store (ρ : Type) : Type := List (String × List (ConstKey × List (String × ρ)))

/-- The innermost dictionary result_storage[kernel_name][constants_key]
(empty when intermediate levels are missing). -/
def innerDict {ρ : Type} (st : Store ρ) (kn : String) (ck : ConstKey) :
    List (String × ρ) :=
  (alookup ((alookup st kn).getD []) ck).getD []

/-- Lines 192-198: create missing intermediate dicts, then assign
result_storage[kernel_name][constants_key][model_name] = results. -/
def upsert {ρ : Type} (st : Store ρ) (kn : String) (ck : ConstKey) (mn : String)
    (res : ρ) : Store ρ :=
  let st1 : Store ρ := if amem st kn then st else aset st kn []
  let lvl1 := (alookup st1 kn).getD []
  let lvl1' := if amem lvl1 ck then lvl1 else aset lvl1 ck []
  let lvl2 := (alookup lvl1' ck).getD []
  aset st1 kn (aset lvl1' ck (aset lvl2 mn res))

/-- Lookup of a full key path in the store. -/
def getPath {ρ : Type} (st : Store ρ) (kn : String) (ck : ConstKey) (mn : String) :
    Option ρ :=
  (alookup st kn).bind fun l1 => (alookup l1 ck).bind fun l2 => alookup l2 mn

/-! ## Store loading (run, lines 134-142) -/

/-- The exceptions a deserialization attempt can raise: EOFError, or any
other error (UnpicklingError, ValueError, ...), identified by a message. -/
inductive PickleErr where
  | eofError
  | other (msg : List Char)
deriving DecidableEq

/-- Lines 134-142: result_storage = {}; if a store file is given, attempt
pickle.load, turning exactly an EOFError into the empty store (except
EOFError: pass) and propagating every other failure.  The deserializer is
the external pickle collaborator, passed as a parameter. -/
def loadStore {ρ : Type} (deser : List Nat → Except PickleErr (Store ρ)) :
    Option (List Nat) → Except PickleErr (Store ρ)
  | none => .ok []
  | some content =>
    match deser content with
    | .ok s => .ok s
    | .error .eofError => .ok []
    | .error e => .error e

/-- An unpickled object in the fragment of pickle modelled below. -/
inductive MiniObj where
  | pyNone
deriving DecidableEq

/-- The CPython 2 pickle.Unpickler dispatch loop, restricted to the opcodes
NONE (byte 78, push None) and STOP (byte 46, return the top of stack):
read(1) returning the empty string dispatches load_eof, which raises
EOFError, so any input that ends before a STOP opcode raises EOFError,
whether or not the input itself is empty. -/
def pickleMiniLoop : List MiniObj → List Nat → Except PickleErr MiniObj
  | _, [] => .error .eofError
  | stack, 78 :: rest => pickleMiniLoop (MiniObj.pyNone :: stack) rest
  | o :: _, 46 :: _ => .ok o
  | [], 46 :: _ => .error (.other ['s'])
  | _, _ :: _ => .error (.other ['K'])

/-- pickle.load on raw bytes, in the modelled fragment. -/
def pickleMini (bs : List Nat) : Except PickleErr MiniObj :=
  pickleMiniLoop [] bs

/-- The deserializer seen by run when the store file holds the modelled
pickle fragment; the successful case is mapped to an empty store, which is
irrelevant to the failure behaviour examined below. -/
def pickleDeser (bs : List Nat) : Except PickleErr (Store ℤ) :=
  match pickleMini bs with
  | .ok _ => .ok []
  | .error e => .error e

/-- A deserializer failing with a non-EOF error on every input. -/
def alwaysBadDeser (msg : List Char) : List Nat → Except PickleErr (Store ℤ) :=
  fun _ => .error (.other msg)

/-! ## Atomic save (run, lines 202-207) -/

/-- A file system: file name to content (none = absent). -/
abbrev FS : Type := String → Option (List Nat)

/-- The two file-system effects of the save code: the write of the full
serialized store to a file (open(tempname, mode) plus pickle.dump), and
shutil.move, which for a same-directory destination is the atomic
os.rename. -/
inductive FSOp where
  | write (name : String) (content : List Nat)
  | move (src dst : String)

/-- Effect of one operation on the file system. -/
def applyOp (fs : FS) : FSOp → FS
  | .write n c => fun m => if m = n then some c else fs m
  | .move s d => fun m => if m = d then fs s else if m = s then none else fs m

/-- Lines 202-207: write the serialized store to name + ".tmp", then move
the temporary file onto the store file. -/
def saveStore (fs : FS) (name : String) (bytes : List Nat) : FS :=
  applyOp (applyOp fs (.write (name ++ ".tmp") bytes)) (.move (name ++ ".tmp") name)

/-! ## Sweep-long accumulation (for the frame property) -/

/-- One upsert performed during the sweep. -/
structure UpsertOp (ρ : Type) where
  kn : String
  ck : ConstKey
  mn : String
  res : ρ

/-- The store after a sequence of upserts, starting from the loaded store. -/
def applyUpserts {ρ : Type} (ops : List (UpsertOp ρ)) (st : Store ρ) : Store ρ :=
  ops.foldl (fun s o => upsert s o.kn o.ck o.mn o.res) st


/-! ## Association-list lemmas -/

lemma find?_append_eq {α : Type} (l1 l2 : List α) (f : α → Bool) :
    (l1 ++ l2).find? f =
      match l1.find? f with
      | some a => some a
      | none => l2.find? f := by
  induction l1 with
  | nil => simp
  | cons a l ih =>
    by_cases h : f a
    · simp [List.find?_cons_of_pos _ h]
    · simp only [List.cons_append, List.find?_cons_of_neg _ h, ih]

lemma find?_map_overwrite_self {κ β : Type} [DecidableEq κ] (k : κ) (v : β)
    (l : List (κ × β)) (h : amem l k = true) :
    (l.map fun p => if p.1 = k then (k, v) else p).find?
      (fun p => decide (p.1 = k)) = some (k, v) := by
  induction l with
  | nil => simp [amem] at h
  | cons p l ih =>
    by_cases hp : p.1 = k
    · simp only [List.map_cons, if_pos hp]
      exact List.find?_cons_of_pos _ (by simp)
    · have h' : amem l k = true := by
        simp only [amem, List.any_cons, Bool.or_eq_true, decide_eq_true_eq] at h
        rcases h with h | h
        · exact absurd h hp
        · exact h
      simp only [List.map_cons, if_neg hp]
      rw [List.find?_cons_of_neg _ (by simpa using hp)]
      exact ih h'

lemma find?_map_overwrite_ne {κ β : Type} [DecidableEq κ] (k k' : κ) (v : β)
    (l : List (κ × β)) (h : k' ≠ k) :
    (l.map fun p => if p.1 = k' then (k', v) else p).find?
      (fun p => decide (p.1 = k)) = l.find? fun p => decide (p.1 = k) := by
  induction l with
  | nil => simp
  | cons p l ih =>
    by_cases hp : p.1 = k'
    · simp only [List.map_cons, if_pos hp]
      rw [List.find?_cons_of_neg _ (by simpa using h),
        List.find?_cons_of_neg _ (by simp [hp, h]), ih]
    · simp only [List.map_cons, if_neg hp]
      by_cases hk : p.1 = k
      · rw [List.find?_cons_of_pos _ (by simpa using hk),
          List.find?_cons_of_pos _ (by simpa using hk)]
      · rw [List.find?_cons_of_neg _ (by simpa using hk),
          List.find?_cons_of_neg _ (by simpa using hk), ih]

lemma find?_eq_none_of_amem_false {κ β : Type} [DecidableEq κ] (k : κ)
    (l : List (κ × β)) (h : amem l k = false) :
    (l.find? fun p => decide (p.1 = k)) = none := by
  rw [List.find?_eq_none]
  intro p hp
  simp only [amem] at h
  exact (List.any_eq_false.mp h) p hp

lemma alookup_aset_self {κ β : Type} [DecidableEq κ] (l : List (κ × β)) (k : κ) (v : β) :
    alookup (aset l k v) k = some v := by
  unfold aset
  by_cases h : amem l k
  · simp only [if_pos h, alookup, find?_map_overwrite_self k v l h, Option.map_some']
  · simp only [if_neg h, alookup, find?_append_eq,
      find?_eq_none_of_amem_false k l (by simpa using h)]
    simp

lemma alookup_aset_ne {κ β : Type} [DecidableEq κ] (l : List (κ × β)) (k k' : κ) (v : β)
    (h : k' ≠ k) : alookup (aset l k' v) k = alookup l k := by
  unfold aset
  by_cases hm : amem l k'
  · simp only [if_pos hm, alookup, find?_map_overwrite_ne k k' v l h]
  · simp only [if_neg hm, alookup, find?_append_eq]
    cases hf : l.find? fun p => decide (p.1 = k) with
    | some a => simp
    | none => simp [List.find?_cons_of_neg, h]

lemma amem_eq_isSome {κ β : Type} [DecidableEq κ] (l : List (κ × β)) (k : κ) :
    amem l k = (alookup l k).isSome := by
  induction l with
  | nil => rfl
  | cons p l ih =>
    by_cases h : p.1 = k
    · simp only [amem, List.any_cons, alookup]
      rw [List.find?_cons_of_pos _ (by simpa using h)]
      simp [h]
    · simp only [amem, List.any_cons, alookup] at ih ⊢
      rw [List.find?_cons_of_neg _ (by simpa using h)]
      simp [h, ih]

lemma countKey_aset_self {κ β : Type} [DecidableEq κ] (l : List (κ × β)) (k : κ) (v : β)
    (h : countKey l k ≤ 1) : countKey (aset l k v) k = 1 := by
  unfold aset
  by_cases hm : amem l k
  · simp only [if_pos hm, countKey, List.countP_map]
    have hcong : ∀ p ∈ l,
        (((fun q : κ × β => decide (q.1 = k)) ∘ fun p => if p.1 = k then (k, v) else p) p
          = true ↔ decide (p.1 = k) = true) := by
      intro p _
      by_cases hp : p.1 = k <;> simp [hp]
    rw [List.countP_congr hcong]
    have hpos : 0 < l.countP fun p => decide (p.1 = k) := by
      simp only [amem] at hm
      rcases List.any_eq_true.mp hm with ⟨p, hp, hpk⟩
      exact List.countP_pos_iff.mpr ⟨p, hp, hpk⟩
    simp only [countKey] at h
    omega
  · have hm' : amem l k = false := by simpa using hm
    have hz : (l.countP fun p => decide (p.1 = k)) = 0 := by
      rw [List.countP_eq_zero]
      intro p hp
      exact (List.any_eq_false.mp hm') p hp
    simp [if_neg hm, countKey, List.countP_append, hz]


/-! ## Store lemmas -/

lemma alookup_eq_none_of_amem_false {κ β : Type} [DecidableEq κ] (l : List (κ × β)) (k : κ)
    (h : amem l k = false) : alookup l k = none := by
  unfold alookup
  rw [find?_eq_none_of_amem_false k l h]
  rfl

lemma getPath_upsert_self {ρ : Type} (st : Store ρ) (kn : String) (ck : ConstKey)
    (mn : String) (res : ρ) :
    getPath (upsert st kn ck mn res) kn ck mn = some res := by
  simp [upsert, getPath, alookup_aset_self]

lemma amem_nil {κ β : Type} [DecidableEq κ] (k : κ) : amem ([] : List (κ × β)) k = false := rfl

lemma alookup_nil {κ β : Type} [DecidableEq κ] (k : κ) : alookup ([] : List (κ × β)) k = none := rfl

lemma innerDict_upsert {ρ : Type} (st : Store ρ) (kn : String) (ck : ConstKey)
    (mn : String) (res : ρ) :
    innerDict (upsert st kn ck mn res) kn ck = aset (innerDict st kn ck) mn res := by
  simp only [upsert, innerDict, alookup_aset_self, Option.getD_some]
  congr 1
  by_cases h1 : amem st kn
  · simp only [if_pos h1]
    by_cases h2 : amem ((alookup st kn).getD []) ck
    · simp only [if_pos h2]
    · rw [if_neg h2, alookup_aset_self,
        alookup_eq_none_of_amem_false ((alookup st kn).getD []) ck (by simpa using h2)]
      rfl
  · have hl1 : alookup st kn = none :=
      alookup_eq_none_of_amem_false st kn (by simpa using h1)
    rw [if_neg h1, alookup_aset_self, Option.getD_some, hl1]
    simp only [Option.getD_none, Option.getD_some, amem_nil, Bool.false_eq_true, if_false,
      alookup_aset_self, alookup_nil]

lemma getPath_upsert_frame {ρ : Type} (st : Store ρ) (kn' kn : String) (ck' ck : ConstKey)
    (mn' mn : String) (res : ρ) (hdiff : ¬(kn' = kn ∧ ck' = ck ∧ mn' = mn)) :
    getPath (upsert st kn' ck' mn' res) kn ck mn = getPath st kn ck mn := by
  by_cases hkn : kn' = kn
  · subst hkn
    by_cases hck : ck' = ck
    · subst hck
      have hmn : mn' ≠ mn := fun hm => hdiff ⟨rfl, rfl, hm⟩
      by_cases h1 : amem st kn'
      · have h1' : (alookup st kn').isSome := by
          rw [← amem_eq_isSome]
          exact h1
        obtain ⟨l1, hl1⟩ := Option.isSome_iff_exists.mp h1'
        by_cases h2 : amem l1 ck'
        · have h2' : (alookup l1 ck').isSome := by
            rw [← amem_eq_isSome]
            exact h2
          obtain ⟨l2, hl2⟩ := Option.isSome_iff_exists.mp h2'
          simp [upsert, getPath, h1, h2, hl1, hl2, alookup_aset_self,
            alookup_aset_ne _ mn mn' _ hmn]
        · have hl2 : alookup l1 ck' = none :=
            alookup_eq_none_of_amem_false l1 ck' (by simpa using h2)
          simp [upsert, getPath, h1, h2, hl1, hl2, alookup_aset_self,
            alookup_aset_ne _ mn mn' _ hmn, alookup_nil]
      · have hl1 : alookup st kn' = none :=
          alookup_eq_none_of_amem_false st kn' (by simpa using h1)
        simp [upsert, getPath, h1, hl1, alookup_aset_self, amem_nil,
          alookup_aset_ne _ mn mn' _ hmn, alookup_nil]
    · have hcne : ck' ≠ ck := hck
      by_cases h1 : amem st kn'
      · have h1' : (alookup st kn').isSome := by
          rw [← amem_eq_isSome]
          exact h1
        obtain ⟨l1, hl1⟩ := Option.isSome_iff_exists.mp h1'
        by_cases h2 : amem l1 ck'
        · simp [upsert, getPath, h1, h2, hl1, alookup_aset_self,
            alookup_aset_ne _ ck ck' _ hcne]
        · simp [upsert, getPath, h1, h2, hl1, alookup_aset_self,
            alookup_aset_ne _ ck ck' _ hcne, alookup_nil]
      · have hl1 : alookup st kn' = none :=
          alookup_eq_none_of_amem_false st kn' (by simpa using h1)
        simp [upsert, getPath, h1, hl1, alookup_aset_self, amem_nil,
          alookup_aset_ne _ ck ck' _ hcne, alookup_nil]
  · have hne : kn' ≠ kn := hkn
    by_cases h1 : amem st kn'
    · simp [upsert, getPath, h1, alookup_aset_ne _ kn kn' _ hne]
    · simp [upsert, getPath, h1, alookup_aset_ne _ kn kn' _ hne]

lemma applyUpserts_frame {ρ : Type} (kn : String) (ck : ConstKey) (mn : String) :
    ∀ (ops : List (UpsertOp ρ)) (st : Store ρ),
      (∀ op ∈ ops, ¬(op.kn = kn ∧ op.ck = ck ∧ op.mn = mn)) →
      getPath (applyUpserts ops st) kn ck mn = getPath st kn ck mn := by
  intro ops
  induction ops with
  | nil => intro st _; rfl
  | cons o ops ih =>
    intro st hframe
    have hstep := getPath_upsert_frame st o.kn kn o.ck ck o.mn mn o.res
      (hframe o (List.mem_cons_self o ops))
    calc getPath (applyUpserts (o :: ops) st) kn ck mn
        = getPath (applyUpserts ops (upsert st o.kn o.ck o.mn o.res)) kn ck mn := rfl
      _ = getPath (upsert st o.kn o.ck o.mn o.res) kn ck mn :=
          ih _ fun op hop => hframe op (List.mem_cons_of_mem o hop)
      _ = getPath st kn ck mn := hstep


/-! ## Cartesian-product lemmas -/

lemma prodList_length {α : Type} : ∀ axes : List (List α),
    (prodList axes).length = sizeProd axes := by
  intro axes
  induction axes with
  | nil => rfl
  | cons ax axs ih =>
    show ((ax.map fun v => (prodList axs).map fun t => v :: t).flatten).length = _
    rw [List.length_flatten, List.map_map]
    have hconst : (List.length ∘ fun v : α => (prodList axs).map fun t => v :: t)
        = fun _ => sizeProd axs := by
      funext v
      simp [ih]
    rw [hconst]
    simp [sizeProd, List.map_const', List.sum_replicate, smul_eq_mul]

lemma flatten_getElem?_const {β : Type} (S : Nat) :
    ∀ (L : List (List β)) (k : Nat), (∀ l ∈ L, l.length = S) →
      L.flatten[k]? = (L[k / S]?).bind fun l => l[k % S]? := by
  intro L
  induction L with
  | nil =>
    intro k _
    simp
  | cons l L ih =>
    intro k h
    have hl : l.length = S := h l (List.mem_cons_self l L)
    have hL : ∀ l' ∈ L, l'.length = S := fun l' hl' => h l' (List.mem_cons_of_mem l hl')
    by_cases hk : k < S
    · have hS : 0 < S := Nat.lt_of_le_of_lt (Nat.zero_le k) hk
      rw [List.flatten_cons, List.getElem?_append, if_pos (by rw [hl]; exact hk),
        Nat.div_eq_of_lt hk, Nat.mod_eq_of_lt hk]
      simp
    · push_neg at hk
      by_cases hS : S = 0
      · subst hS
        have hnil : l = [] := List.length_eq_zero.mp hl
        have hflat : L.flatten = [] := by
          have hlen : L.flatten.length = 0 := by
            rw [List.length_flatten]
            refine List.sum_eq_zero ?_
            intro x hx
            rcases List.mem_map.mp hx with ⟨l', hl', rfl⟩
            exact hL l' hl'
          exact List.length_eq_zero.mp hlen
        subst hnil
        simp [hflat, Nat.div_zero, Nat.mod_zero]
      · have hS0 : 0 < S := Nat.pos_of_ne_zero hS
        rw [List.flatten_cons, List.getElem?_append, if_neg (by rw [hl]; omega), hl,
          ih (k - S) hL, Nat.div_eq_sub_div hS0 hk, Nat.mod_eq_sub_mod hk]
        simp [List.getElem?_cons_succ]

lemma prodList_getElem? {α : Type} :
    ∀ (axes : List (List α)) (k : Nat), (prodList axes)[k]? = specKth axes k := by
  intro axes
  induction axes with
  | nil =>
    intro k
    cases k with
    | zero => rfl
    | succ n => rfl
  | cons ax axs ih =>
    intro k
    show ((ax.map fun v => (prodList axs).map fun t => v :: t).flatten)[k]? = _
    rw [flatten_getElem?_const (sizeProd axs) _ k ?hlen]
    case hlen =>
      intro l hl
      rcases List.mem_map.mp hl with ⟨v, hv, rfl⟩
      rw [List.length_map, prodList_length]
    rw [List.getElem?_map]
    cases hax : ax[k / sizeProd axs]? with
    | none => simp [specKth, hax]
    | some v =>
      simp only [hax, Option.map_some', Option.some_bind]
      rw [List.getElem?_map, ih]
      simp [specKth, hax]


/-! ## space lemmas -/

lemma spaceList_length (start stop num : ℤ) (ep : Bool) :
    (spaceList start stop num ep).length = num.toNat := by
  show ((List.range num.toNat).map _).length = num.toNat
  rw [List.length_map, List.length_range]

lemma spaceList_getElem? (start stop num : ℤ) (i : ℕ) (hi : i < num.toNat) :
    (spaceList start stop num true)[i]? =
      some (round ((start : ℚ) + (i : ℚ) *
        (((stop : ℚ) - (start : ℚ)) / ((num : ℚ) - 1)))) := by
  have h : spaceList start stop num true = (List.range num.toNat).map fun j : ℕ =>
      round ((start : ℚ) + (j : ℚ) * (((stop : ℚ) - (start : ℚ)) / ((num : ℚ) - 1))) := rfl
  rw [h, List.getElem?_map]
  simp [List.getElem?_range, hi]

lemma spaceList_last (start stop num : ℤ) (h2 : 2 ≤ num) :
    (spaceList start stop num true)[num.toNat - 1]? = some stop := by
  have hi : num.toNat - 1 < num.toNat := by omega
  rw [spaceList_getElem? start stop num _ hi]
  have hcast : ((num.toNat - 1 : ℕ) : ℚ) = (num : ℚ) - 1 := by
    have hnum : ((num.toNat : ℕ) : ℚ) = (num : ℚ) := by
      exact_mod_cast congrArg (fun z : ℤ => (z : ℚ)) (Int.toNat_of_nonneg (by omega))
    rw [Nat.cast_sub (by omega : 1 ≤ num.toNat), hnum, Nat.cast_one]
  have hne : (num : ℚ) - 1 ≠ 0 := by
    have h2q : (2 : ℚ) ≤ (num : ℚ) := by exact_mod_cast h2
    intro hz
    rw [sub_eq_zero] at hz
    rw [hz] at h2q
    norm_num at h2q
  have harith : (start : ℚ) + ((num : ℚ) - 1) *
      (((stop : ℚ) - (start : ℚ)) / ((num : ℚ) - 1)) = (stop : ℚ) := by
    field_simp
  rw [hcast, harith, round_intCast]


/-! ## Claims -/

/-- Claim C1, evaluation of the code at the claimed input.  Declaring name N
with range 1-3 and then again with range 2-4 does NOT yield the axis
[1,2,3,4]: the dedup test of line 159 compares the integer v against the
[name, value] pairs stored in define_dict[name], which never compare equal,
so the values 2 and 3 are appended a second time and the axis holds the six
entries [N,1],[N,2],[N,3],[N,2],[N,3],[N,4], with [N,2] occurring twice. -/
theorem c1_duplicate_append :
    parseAndExpand logEvalZero ("1-3".data) = .ok [1, 2, 3]
    ∧ parseAndExpand logEvalZero ("2-4".data) = .ok [2, 3, 4]
    ∧ buildDefineDict [("N", [1, 2, 3]), ("N", [2, 3, 4])] =
        [("N", [PyVal.vPair "N" 1, PyVal.vPair "N" 2, PyVal.vPair "N" 3,
                PyVal.vPair "N" 2, PyVal.vPair "N" 3, PyVal.vPair "N" 4])]
    ∧ ((alookup (buildDefineDict [("N", [1, 2, 3]), ("N", [2, 3, 4])]) "N").getD []).count
        (PyVal.vPair "N" 2) = 2 :=
  ⟨rfl, rfl, by decide, by decide⟩

/-- Claim C2, evaluation of the code at the claimed inputs.  The token 4abc
does not match the grammar start[-stop[:num[log[base]]]] as a whole, yet it
is accepted at argument-parsing time (re.match only anchors the start, so
the valid prefix 4 matches and abc is ignored); the token 1-10:1 has
num = 1 < 2 yet parses without error into an unevaluated space generator,
whose num >= 2 assertion only fires when the generator is first consumed
inside run, after the result store has been loaded and the kernel built.
Only a token with no valid prefix at all, such as abc, is rejected at
argument-parsing time. -/
theorem c2_parse_acceptance :
    appendStringRange ("4abc".data) = .ok (.single 4)
    ∧ appendStringRange ("1-10:1".data) = .ok (.spaceCall 1 10 1 false 10)
    ∧ expandValues logEvalZero (.spaceCall 1 10 1 false 10) =
        .error "num has to be atleast 2"
    ∧ appendStringRange ("abc".data) =
        .error "second argument must match: start[-stop[:num[log[base]]]]" :=
  ⟨rfl, rfl, rfl, rfl⟩

/-- Claim C3, counterexample.  The token 8-4 (stop < start, no num) is not
rejected as malformed: it parses into range(8, 4+1) and yields the empty
sequence. -/
theorem c3_counterexample :
    appendStringRange ("8-4".data) = .ok (.intRange 8 4)
    ∧ parseAndExpand logEvalZero ("8-4".data) = .ok [] :=
  ⟨rfl, rfl⟩

/-- Claim C3 as amended: a start-stop token with stop < start and no num is
accepted and produces the empty sequence range(start, stop+1); with num it
is likewise accepted and space yields a decreasing sequence (8-4:3 gives
[8, 6, 4]); in neither case is the token rejected. -/
theorem c3_amended (logEval : LogEval) (s : List Char) (a b : ℕ)
    (hp : parseRangeSpec s = some ⟨a, some b, none, false, none⟩) (hba : b < a) :
    parseAndExpand logEval s = .ok []
    ∧ parseAndExpand logEvalZero ("8-4:3".data) = .ok [8, 6, 4] := by
  constructor
  · simp only [parseAndExpand, appendStringRange, hp]
    simp only [expandValues]
    have hz : (((b : ℤ) + 1 - (a : ℤ)).toNat) = 0 := by omega
    rw [hz]
    rfl
  · have h1 : parseAndExpand logEvalZero ("8-4:3".data) = .ok (spaceList 8 4 3 true) := rfl
    rw [h1]
    have h3 : (3 : ℤ).toNat = 3 := rfl
    have h2 : spaceList 8 4 3 true = [8, 6, 4] := by
      simp only [spaceList, h3, List.range_succ, List.range_zero, List.nil_append,
        List.cons_append, List.map_cons, List.map_nil, List.map_append, if_true]
      norm_num
    rw [h2]

/-- Witness for the amended claim C3 at the concrete tokens 8-4 and 8-4:3. -/
theorem c3_amended_witness :
    parseAndExpand logEvalZero ("8-4".data) = .ok []
    ∧ parseAndExpand logEvalZero ("8-4:3".data) = .ok [8, 6, 4] :=
  c3_amended logEvalZero ("8-4".data) 8 4 (by decide) (by decide)

/-- Claim C4.  itertools.product over the ordered list of axes yields exactly
the product of the axis lengths many permutations; with zero axes exactly
one empty permutation; the k-th permutation picks from axis i the entry at
index (k / product of the lengths of the axes after i) mod length i, i.e.
the enumeration is lexicographic with the last axis varying fastest; and
axes A=[a0,a1], B=[b0,b1,b2] yield the six permutations
(a0,b0),(a0,b1),(a0,b2),(a1,b0),(a1,b1),(a1,b2) in that order. -/
theorem c4_product :
    (∀ axes : List (List (String × ℤ)), (prodList axes).length = sizeProd axes)
    ∧ prodList ([] : List (List (String × ℤ))) = [[]]
    ∧ (∀ (axes : List (List (String × ℤ))) (k : ℕ), (prodList axes)[k]? = specKth axes k)
    ∧ prodList [[("A", 0), ("A", 1)], [("B", 0), ("B", 1), ("B", 2)]] =
        [[("A", 0), ("B", 0)], [("A", 0), ("B", 1)], [("A", 0), ("B", 2)],
         [("A", 1), ("B", 0)], [("A", 1), ("B", 1)], [("A", 1), ("B", 2)]] :=
  ⟨fun axes => prodList_length axes, rfl,
   fun axes k => prodList_getElem? axes k, by decide⟩

/-- Claim C5.  For a token start-stop:num without log, with stop >= start and
num >= 2, the parsed sequence is space(start, stop, num): it has exactly num
elements, its i-th element is round(start + i*(stop-start)/(num-1)), the
endpoint stop is included as the last element, and the interval [0,10] with
3 points yields [0, 5, 10].  Python float arithmetic is modelled exactly
over the rationals. -/
theorem c5_space (logEval : LogEval) (s : List Char) (a b n : ℕ)
    (hp : parseRangeSpec s = some ⟨a, some b, some n, false, none⟩)
    (hab : a ≤ b) (h2 : 2 ≤ n) :
    parseAndExpand logEval s = .ok (spaceList (a : ℤ) (b : ℤ) (n : ℤ) true)
    ∧ (spaceList (a : ℤ) (b : ℤ) (n : ℤ) true).length = n
    ∧ (∀ i : ℕ, i < n →
        (spaceList (a : ℤ) (b : ℤ) (n : ℤ) true)[i]? =
          some (round ((a : ℚ) + (i : ℚ) * (((b : ℚ) - (a : ℚ)) / ((n : ℚ) - 1)))))
    ∧ (spaceList (a : ℤ) (b : ℤ) (n : ℤ) true)[n - 1]? = some (b : ℤ)
    ∧ spaceList 0 10 3 true = [0, 5, 10] := by
  refine ⟨?_, ?_, ?_, ?_, ?_⟩
  · simp only [parseAndExpand, appendStringRange, hp]
    simp [expandValues, show (2 : ℤ) ≤ (n : ℤ) by exact_mod_cast h2]
  · rw [spaceList_length]
    omega
  · intro i hi
    have hi' : i < ((n : ℤ)).toNat := by omega
    rw [spaceList_getElem? _ _ _ i hi']
    norm_cast
  · have hi : ((n : ℤ)).toNat - 1 = n - 1 := by omega
    rw [← hi, spaceList_last _ _ _ (by exact_mod_cast h2)]
  · have h3 : (3 : ℤ).toNat = 3 := rfl
    simp only [spaceList, h3, List.range_succ, List.range_zero, List.nil_append,
      List.cons_append, List.map_cons, List.map_nil, List.map_append, if_true]
    norm_num

/-- Witness for claim C5 at the concrete token 0-10:3. -/
theorem c5_witness :
    parseAndExpand logEvalZero ("0-10:3".data) =
      .ok (spaceList ((0 : ℕ) : ℤ) ((10 : ℕ) : ℤ) ((3 : ℕ) : ℤ) true)
    ∧ spaceList 0 10 3 true = [0, 5, 10] :=
  ⟨(c5_space logEvalZero ("0-10:3".data) 0 10 3 (by decide) (by decide) (by decide)).1,
   (c5_space logEvalZero ("0-10:3".data) 0 10 3 (by decide) (by decide)
     (by decide)).2.2.2.2⟩


/-- Claim C6, counterexample.  The non-empty store content consisting of the
single NONE opcode (byte 78) fails to deserialize -- the pickle dispatch
loop runs out of input before a STOP opcode and raises EOFError -- yet run
catches EOFError and silently replaces the store with an empty one instead
of aborting. -/
theorem c6_counterexample :
    ([78] : List ℕ) ≠ []
    ∧ pickleMini [78] = .error PickleErr.eofError
    ∧ loadStore pickleDeser (some [78]) = .ok ([] : Store ℤ) :=
  ⟨by decide, rfl, rfl⟩

/-- Claim C6 as amended: an absent source yields an empty store; a source
whose deserialization raises EOFError -- the empty source, but also any
non-empty source truncated at a pickle opcode boundary -- silently yields an
empty store; any deserialization failure other than EOFError is fatal and
propagates before any analysis executes; a successful deserialization is
returned as-is. -/
theorem c6_amended (deser : List ℕ → Except PickleErr (Store ℤ)) (content : List ℕ)
    (e : PickleErr) (s : Store ℤ) :
    loadStore deser none = .ok []
    ∧ (deser content = .error .eofError → loadStore deser (some content) = .ok [])
    ∧ (deser content = .error e → e ≠ .eofError → loadStore deser (some content) = .error e)
    ∧ (deser content = .ok s → loadStore deser (some content) = .ok s) := by
  refine ⟨rfl, ?_, ?_, ?_⟩
  · intro h
    simp [loadStore, h]
  · intro h hne
    cases e with
    | eofError => exact absurd rfl hne
    | other msg => simp [loadStore, h]
  · intro h
    simp [loadStore, h]

/-- Witness for the amended claim C6: the EOFError branch at the truncated
content [78], and the fatal branch for a non-EOF failure. -/
theorem c6_witness :
    loadStore pickleDeser (some [78]) = .ok ([] : Store ℤ)
    ∧ loadStore (alwaysBadDeser ['x']) (some [78]) = .error (.other ['x']) :=
  ⟨(c6_amended pickleDeser [78] .eofError []).2.1 rfl,
   (c6_amended (alwaysBadDeser ['x']) [78] (.other ['x']) []).2.2.1 rfl (by decide)⟩

/-- Claim C7.  Upserting at the same (kernel_name, constants_key, model_name)
triple twice leaves exactly one entry at that key path, holding the later
value, and an upsert into the empty store creates all intermediate mapping
levels; the hypothesis is the dictionary representation invariant (a key is
bound at most once). -/
theorem c7_upsert {ρ : Type} (st : Store ρ) (kn : String) (ck : ConstKey) (mn : String)
    (r1 r2 : ρ) (h : countKey (innerDict st kn ck) mn ≤ 1) :
    getPath (upsert (upsert st kn ck mn r1) kn ck mn r2) kn ck mn = some r2
    ∧ countKey (innerDict (upsert (upsert st kn ck mn r1) kn ck mn r2) kn ck) mn = 1
    ∧ getPath (upsert ([] : Store ρ) kn ck mn r1) kn ck mn = some r1 := by
  refine ⟨getPath_upsert_self _ _ _ _ _, ?_, getPath_upsert_self _ _ _ _ _⟩
  rw [innerDict_upsert, innerDict_upsert]
  exact countKey_aset_self _ _ _ (le_of_eq (countKey_aset_self _ _ _ h))

/-- Witness for claim C7: two upserts of 5 then 7 at the same triple on the
empty store leave the single entry 7. -/
theorem c7_witness :
    getPath (upsert (upsert ([] : Store ℤ) "k" [("c", 1)] "m" 5) "k" [("c", 1)] "m" 7)
        "k" [("c", 1)] "m" = some 7
    ∧ countKey (innerDict (upsert (upsert ([] : Store ℤ) "k" [("c", 1)] "m" 5)
        "k" [("c", 1)] "m" 7) "k" [("c", 1)]) "m" = 1
    ∧ getPath (upsert ([] : Store ℤ) "k" [("c", 1)] "m" 5) "k" [("c", 1)] "m" = some 5 :=
  c7_upsert ([] : Store ℤ) "k" [("c", 1)] "m" 5 7 (by decide)

/-- Claim C8.  The save writes the serialized store to the adjacent
temporary file name + ".tmp" -- a location distinct from the target -- so an
interruption during or after the temporary write and before the rename
leaves the target unchanged; the completed write-then-rename leaves the
target holding exactly the new serialized store; and the temporary file
holds exactly the bytes written to it regardless of prior content.  The
rename step is a single atomic operation: shutil.move on a same-directory
destination is os.rename. -/
theorem c8_atomic (fs : FS) (name : String) (pikl junk : List ℕ) :
    name ++ ".tmp" ≠ name
    ∧ applyOp fs (.write (name ++ ".tmp") junk) name = fs name
    ∧ saveStore fs name pikl name = some pikl
    ∧ applyOp fs (.write (name ++ ".tmp") pikl) (name ++ ".tmp") = some pikl := by
  have hne : name ++ ".tmp" ≠ name := by
    intro h
    have h2 := congrArg String.length h
    rw [String.length_append] at h2
    have h4 : (".tmp" : String).length = 4 := rfl
    omega
  refine ⟨hne, ?_, ?_, ?_⟩
  · exact if_neg fun h => hne h.symm
  · simp [saveStore, applyOp]
  · simp [applyOp]

/-- Claim C9.  The token 4 yields the one-element sequence [4]; every token
parsed as start-stop without num yields the inclusive integer sequence
start, start+1, ..., stop; in particular 4-8 yields [4,5,6,7,8]. -/
theorem c9_ranges (logEval : LogEval) (s : List Char) (a b : ℕ)
    (hp : parseRangeSpec s = some ⟨a, some b, none, false, none⟩) (hab : a ≤ b) :
    parseAndExpand logEval s =
      .ok ((List.range (b + 1 - a)).map fun i : ℕ => (a : ℤ) + (i : ℤ))
    ∧ parseAndExpand logEval ("4".data) = .ok [4]
    ∧ parseAndExpand logEval ("4-8".data) = .ok [4, 5, 6, 7, 8] := by
  refine ⟨?_, rfl, rfl⟩
  simp only [parseAndExpand, appendStringRange, hp]
  simp only [expandValues]
  have hz : ((b : ℤ) + 1 - (a : ℤ)).toNat = b + 1 - a := by omega
  rw [hz]

/-- Witness for claim C9 at the concrete token 4-8. -/
theorem c9_witness :
    parseAndExpand logEvalZero ("4-8".data) =
      .ok ((List.range (8 + 1 - 4)).map fun i : ℕ => ((4 : ℕ) : ℤ) + (i : ℤ))
    ∧ parseAndExpand logEvalZero ("4".data) = .ok [4]
    ∧ parseAndExpand logEvalZero ("4-8".data) = .ok [4, 5, 6, 7, 8] :=
  c9_ranges logEvalZero ("4-8".data) 4 8 (by decide) (by decide)

/-- Claim C10.  Every entry present in the store loaded at sweep start whose
(kernel_name, constants_key, model_name) path is not written by any upsert
of the sweep is still present, with its original value, in the store saved
after each permutation (i.e. after every prefix of the upsert sequence). -/
theorem c10_frame {ρ : Type} (init : Store ρ) (ops : List (UpsertOp ρ)) (kn : String)
    (ck : ConstKey) (mn : String) (v : ρ)
    (hv : getPath init kn ck mn = some v)
    (hframe : ∀ op ∈ ops, ¬(op.kn = kn ∧ op.ck = ck ∧ op.mn = mn)) :
    ∀ k : ℕ, getPath (applyUpserts (ops.take k) init) kn ck mn = some v := by
  intro k
  rw [applyUpserts_frame kn ck mn (ops.take k) init
    (fun op hop => hframe op (List.take_subset k ops hop))]
  exact hv

/-- Witness for claim C10: a pre-existing entry survives a sweep that upserts
at a different model name. -/
theorem c10_witness :
    getPath (applyUpserts (([⟨"k", [], "o", 9⟩] : List (UpsertOp ℤ)).take 1)
      [("k", [([], [("m", 5)])])]) "k" [] "m" = some 5 :=
  c10_frame [("k", [([], [("m", 5)])])] [⟨"k", [], "o", 9⟩] "k" [] "m" 5
    (by decide) (by decide) 1

end Kerncraft
